import Mathlib

/-!
# Verification of the from.js lazy query pipeline

Shallow embedding of the stage combinators of `from.js` (a LINQ-style lazy
sequence library).  Upstream sequences are modelled as `List α`; generator
based pull iteration (`[Symbol.iterator]`) becomes a structurally recursive
function producing the list of yielded values, and the optional push path
(`forEach(iteratee)`) becomes a function that threads the iteratee's
continue/stop flag and additionally reports the list of values the iteratee
was called with.  JavaScript numbers used as counters are modelled as `Int`
(all the code paths in question only ever add or subtract 1), array cells
that may be `undefined` are modelled as `Option`, and code that can throw
returns `Except String`.
-/

set_option autoImplicit false

namespace FromJs

universe u v

variable {α : Type u} {β : Type v}

/-! ## TakeSource (src/src/from.ts lines 738-758, src/unnamed/part_000 lines 878-907)

```
*[Symbol.iterator]()
{
    let takesLeft = this.count;
    for (const value of this.source) {
        if (takesLeft-- <= 0)
            break;
        yield value;
    }
}
```
-/

/-- Pull iteration of `TakeSource`: `takesLeft` starts at `count`; each loop
iteration first pulls an upstream value, then checks `takesLeft-- <= 0`
(comparing the pre-decrement value) and breaks or yields. -/
def takePull (count : Int) : List α → List α
  | [] => []
  | x :: xs => if count ≤ 0 then [] else x :: takePull (count - 1) xs

/-- Pull iteration of `TakeSource`, also counting how many times the upstream
iterator is advanced (how many `next()` calls the `for`-`of` loop makes,
including the final call that returns either the discarded surplus value or
`done`). -/
def takeTrace (count : Int) : List α → List α × Nat
  | [] => ([], 1)
  | x :: xs =>
      if count ≤ 0 then ([], 1)
      else
        let r := takeTrace (count - 1) xs
        (x :: r.1, r.2 + 1)

/-! ## SkipSource (src/src/from.ts lines 669-688)

```
*[Symbol.iterator]()
{
    let skipsLeft = this.count;
    for (const value of this.source) {
        if (skipsLeft-- <= 0)
            yield value;
    }
}
```
-/

/-- Pull iteration of `SkipSource`: yields a value whenever the pre-decrement
`skipsLeft` is already `≤ 0`; `skipsLeft` is decremented on every element. -/
def skipPull (count : Int) : List α → List α
  | [] => []
  | x :: xs => if count ≤ 0 then x :: skipPull (count - 1) xs else skipPull (count - 1) xs

/-! ## SkipWhileSource (src/unnamed/part_000 lines 844-876)

Pull path:
```
let onTheTake = false;
for (const value of this.source) {
    if (!onTheTake && this.predicate(value))
        onTheTake = true;
    if (onTheTake)
        yield value;
}
```
Push path (`forEach`):
```
let onTheTake = false;
return iterateOver(this.source, value => {
    if (!onTheTake && !this.predicate(value))
        onTheTake = true;
    return onTheTake ? iteratee(value)
        : false;
});
```
For a list-backed upstream, `iterateOver` uses the upstream's `forEach`
(`ArrayLikeSource.forEach`), which stops as soon as the callback returns
`false` and reports whether the traversal ran to completion. -/

/-- Pull iteration of `SkipWhileSource`; `ott` is the `onTheTake` flag. -/
def skipWhilePullGo (p : α → Bool) (ott : Bool) : List α → List α
  | [] => []
  | x :: xs =>
      let ott2 := if !ott && p x then true else ott
      if ott2 then x :: skipWhilePullGo p ott2 xs else skipWhilePullGo p ott2 xs

/-- Pull iteration of `SkipWhileSource` from the initial state. -/
def skipWhilePull (p : α → Bool) (xs : List α) : List α :=
  skipWhilePullGo p false xs

/-- Push traversal of `SkipWhileSource`: returns the list of values passed to
`iteratee` together with the boolean `forEach` returns.  The callback handed
to `iterateOver` sets `onTheTake` when the predicate is *false* and returns
`false` (stopping the upstream) while `onTheTake` is unset. -/
def skipWhileForEachGo (p : α → Bool) (iteratee : α → Bool) (ott : Bool) :
    List α → List α × Bool
  | [] => ([], true)
  | x :: xs =>
      let ott2 := if !ott && !(p x) then true else ott
      if ott2 then
        if iteratee x then
          let r := skipWhileForEachGo p iteratee ott2 xs
          (x :: r.1, r.2)
        else ([x], false)
      else ([], false)

/-- Push traversal of `SkipWhileSource` from the initial state. -/
def skipWhileForEach (p : α → Bool) (iteratee : α → Bool) (xs : List α) : List α × Bool :=
  skipWhileForEachGo p iteratee false xs

/-! ## Query.single (src/src/from.ts lines 1188-1200, JS edition)

```
single(predicate)
{
    let count = 0;
    let lastResult = undefined;
    for (const value of this.source) {
        if (predicate(value)) {
            if (++count > 1)
                throw new Error("Query would return more than one result");
            lastResult = value;
        }
    }
    return lastResult;
}
```
-/

/-- Loop of `Query.single`, carrying the match `count` and `lastResult`. -/
def singleGo (p : α → Bool) (count : Int) (lastResult : Option α) :
    List α → Except String (Option α)
  | [] => .ok lastResult
  | x :: xs =>
      if p x then
        if count + 1 > 1 then .error "Query would return more than one result"
        else singleGo p (count + 1) (some x) xs
      else singleGo p count lastResult xs

/-- `Query.single`: scans the whole source, throwing on a second match. -/
def single (p : α → Bool) (xs : List α) : Except String (Option α) :=
  singleGo p 0 none xs

/-! ## Query.countBy (src/src/from.ts lines 153-164 and 1009-1020,
src/unnamed/part_000 lines 160-172)

```
countBy(keySelector)
{
    const counts = new Map();
    for (const value of this.source) {
        const key = keySelector(value);
        let count = counts.get(key);
        if (count === undefined)
            count = 0;
        counts.set(key, count++);
    }
    return counts;
}
```
A JavaScript `Map` preserves insertion order; `set` on an existing key updates
the value in place, otherwise appends.  We model it as an association list.
Note that `counts.set(key, count++)` passes the *pre-increment* value of
`count` to `set`; the incremented local is then discarded. -/

section CountBy

variable {K : Type v} [DecidableEq K]

/-- `Map.prototype.get`: value of the first (unique) entry for the key. -/
def mapGet : List (K × Nat) → K → Option Nat
  | [], _ => none
  | (k', v) :: m, k => if k = k' then some v else mapGet m k

/-- `Map.prototype.set`: update in place if the key exists, else append. -/
def mapSet : List (K × Nat) → K → Nat → List (K × Nat)
  | [], k, v => [(k, v)]
  | (k', v') :: m, k, v => if k = k' then (k', v) :: m else (k', v') :: mapSet m k v

/-- Loop of `Query.countBy` over the remaining source elements. -/
def countByGo (sel : α → K) (m : List (K × Nat)) : List α → List (K × Nat)
  | [] => m
  | x :: xs =>
      let key := sel x
      let count := match mapGet m key with
        | none => 0
        | some c => c
      countByGo sel (mapSet m key count) xs

/-- `Query.countBy` from the empty map. -/
def countBy (sel : α → K) (xs : List α) : List (K × Nat) :=
  countByGo sel [] xs

/-- The distinct keys of a list in first-occurrence order, given the already
seen keys (bookkeeping used to characterize `countBy`'s key set). -/
def distinctKeys (seen : List K) : List K → List K
  | [] => []
  | k :: ks => if k ∈ seen then distinctKeys seen ks else k :: distinctKeys (k :: seen) ks

end CountBy

/-! ## Query.skipLast / Query.takeLast
(src/src/from.ts lines 337-340, 357-364, 690-713; src/unnamed/part_000 lines 803-842)

`SkipLastSource`:
```
*[Symbol.iterator]()
{
    const buffer = new Array(this.count);
    let ptr = 0;
    let skipsLeft = this.count;
    for (const value of this.source) {
        if (skipsLeft-- <= 0)
            yield buffer[ptr];
        buffer[ptr] = value;
        ptr = (ptr + 1) % this.count;
    }
}
```
`new Array(count)` throws a `RangeError` for a negative count.  For
`count = 0`, `(ptr + 1) % 0` is `NaN`; `buffer[NaN]` then reads/writes the
single string-keyed property `"NaN"`.  We model the buffer as an association
list keyed by `Option Int` (`none` standing for the `NaN` index, absent keys
reading as `undefined`/`none`).

`Query.takeLast`:
```
return this.thru((values) => {
    return count > 0 ? values.slice(-count) : [];
});
```
-/

section SkipLast

/-- Property read `buffer[ptr]`; an absent key is `undefined`. -/
def bufGet : List (Option Int × α) → Option Int → Option α
  | [], _ => none
  | (k, v) :: m, p => if p = k then some v else bufGet m p

/-- Property write `buffer[ptr] = value`. -/
def bufSet : List (Option Int × α) → Option Int → α → List (Option Int × α)
  | [], k, v => [(k, v)]
  | (k', v') :: m, k, v => if k = k' then (k, v) :: m else (k', v') :: bufSet m k v

/-- `ptr = (ptr + 1) % count` with JavaScript semantics: `% 0` is `NaN`, and
`NaN + 1` is `NaN`.  JavaScript `%` truncates toward zero (`Int.tmod`). -/
def ptrStep (count : Int) : Option Int → Option Int
  | none => none
  | some p => if count = 0 then none else some ((p + 1).tmod count)

/-- Loop of `SkipLastSource`'s iterator. -/
def skipLastGo (count : Int) (buf : List (Option Int × α)) (ptr : Option Int)
    (skips : Int) : List α → List (Option α)
  | [] => []
  | x :: xs =>
      let out := if skips ≤ 0 then [bufGet buf ptr] else []
      out ++ skipLastGo count (bufSet buf ptr x) (ptrStep count ptr) (skips - 1) xs

/-- Full iteration of `SkipLastSource`, including the `new Array(count)`
allocation, which throws for a negative count. -/
def skipLastRun (count : Int) (xs : List α) : Except String (List (Option α)) :=
  if count < 0 then .error "RangeError: Invalid array length"
  else .ok (skipLastGo count [] (some 0) count xs)

/-- `Query.takeLast`: `values.slice(-count)` keeps the last
`min(count, length)` elements when `count > 0`; otherwise the result is `[]`. -/
def takeLastRun (count : Int) (xs : List α) : List α :=
  if count > 0 then xs.drop (xs.length - count.toNat) else []

end SkipLast

/-! ## OrderBySource (src/src/from.ts lines 267-270, 399-410, 586-631;
src/unnamed/part_000 lines 661-722)

`orderBy(keySelector, direction)` wraps the source in an `OrderBySource` with
one key maker `{ keySelector, descending }`; `SortQuery.thenBy` constructs
another `OrderBySource` with `auxiliary = true`, which (the source being an
`OrderBySource`) merges into the same stage by appending its key maker.  So
`orderBy(k1, d1).thenBy(k2, d2)` iterates an `OrderBySource` whose
`keyMakers` list is `[(k1, d1), (k2, d2)]` — modelled here by passing that
list directly.

Iterating materializes `(index, value)` records plus each element's cached
key list, then calls `Array.prototype.sort` with
```
(a, b) => {
    const aKeys = keyLists[a.index];
    const bKeys = keyLists[b.index];
    for (let i = 0, len = this.keyMakers.length; i < len; ++i) {
        const invert = this.keyMakers[i].descending;
        if (aKeys[i] < bKeys[i]) return invert ? +1 : -1;
        else if (aKeys[i] > bKeys[i]) return invert ? -1 : +1;
    }
    return a.index - b.index;
}
```
Key selectors are pure here, so the cached `keyLists[a.index]` lookup equals
recomputing the keys from `a.value`; the cache is elided.  The comparator is
a strict total order on the records (distinct records never compare equal
thanks to the index tie-break), so the comparator-consistent result that
`Array.prototype.sort` must return is the *unique* sorted permutation; we
model the sort with insertion sort, which returns exactly that permutation. -/

section OrderBy

variable {K : Type v} [LinearOrder K]

/-- The comparator's key loop: walk the per-key directions and the two key
lists; on the first strictly ordered pair return `±1` (inverted when that key
is descending), otherwise fall through to the index tie-break `tie`. -/
def lexCompare : List Bool → List K → List K → Int → Int
  | d :: ds, a :: as2, b :: bs, tie =>
      if a < b then (if d then 1 else -1)
      else if b < a then (if d then -1 else 1)
      else lexCompare ds as2 bs tie
  | _, _, _, tie => tie

/-- "`a` sorts no later than `b`": the comparator returns `≤ 0`. -/
def obLE (kms : List ((α → K) × Bool)) (a b : Nat × α) : Prop :=
  lexCompare (kms.map Prod.snd) (kms.map fun km => km.1 a.2)
    (kms.map fun km => km.1 b.2) ((a.1 : Int) - (b.1 : Int)) ≤ 0

instance obLEDecidable (kms : List ((α → K) × Bool)) :
    DecidableRel (obLE (α := α) (K := K) kms) := by
  intro a b
  unfold obLE
  exact Int.decLe _ _

/-- Iteration of an `OrderBySource` with the given key makers. -/
def orderByEval (kms : List ((α → K) × Bool)) (xs : List α) : List α :=
  (List.insertionSort (obLE kms) xs.enum).map Prod.snd

/-- `orderBy(k1, d1).thenBy(k2, d2)` (`true` = descending): the merged
two-key `OrderBySource`. -/
def orderByThenBy (k1 : α → K) (d1 : Bool) (k2 : α → K) (d2 : Bool) :
    List α → List α :=
  orderByEval [(k1, d1), (k2, d2)]

/-- Spec-level key comparison: the host language's default `<`, inverted for
a descending key. -/
def ltKeyB (d : Bool) (a b : K) : Bool :=
  if d then decide (b < a) else decide (a < b)

/-- Spec-level strict order: lexicographic over the key tuple `(k1, k2)`,
each component individually invertible for descending order. -/
def specLt (k1 : α → K) (d1 : Bool) (k2 : α → K) (d2 : Bool) (x y : α) : Bool :=
  ltKeyB d1 (k1 x) (k1 y) || (decide (k1 x = k1 y) && ltKeyB d2 (k2 x) (k2 y))

/-- Spec-level stable insertion: `x` goes in front of the first element that
is not strictly below it, hence after every earlier-listed equal element. -/
def stableInsertBy (lt : α → α → Bool) (x : α) : List α → List α
  | [] => [x]
  | y :: ys => if lt y x then y :: stableInsertBy lt x ys else x :: y :: ys

/-- Spec-level stable sort ("elements whose keys are all equal retain their
original input order"): stable insertion sort by the strict order. -/
def stableSortBy (lt : α → α → Bool) : List α → List α
  | [] => []
  | x :: xs => stableInsertBy lt x (stableSortBy lt xs)

end OrderBy

/-! ## ChubSource — the circular window buffer
(src/src/from.ts lines 428-475 `ChubSource`,
src/unnamed/part_000 lines 449-510 `ChungusSource`; identical algorithm,
`feed` named `push` in the `from.ts` edition)

State fields and initial values follow the class verbatim: `stride` is
`windowSize * 2 + 1`, the buffer starts as `new Array(stride)` (all cells
`undefined`, i.e. `none`), `leftArm = -1`, `readPtr = -1`, `rightArm = 0`,
`writePtr = 0`. -/

structure Chub (α : Type u) where
  armSize : Nat
  stride : Nat
  buffer : List (Option α)
  leftArm : Int
  readPtr : Int
  rightArm : Int
  writePtr : Nat
  deriving DecidableEq

/-- `new ChubSource(windowSize)`. -/
def initChub (W : Nat) : Chub α :=
  ⟨W, 2 * W + 1, List.replicate (2 * W + 1) none, -1, -1, 0, 0⟩

/-- JavaScript array read at a possibly negative index: out-of-range reads
give `undefined` (`none`). -/
def jsGetBuf (l : List (Option α)) (i : Int) : Option α :=
  if i < 0 then none else l.getD i.toNat none

/-- `get value()`: `this.buffer[this.readPtr]`. -/
def Chub.value (c : Chub α) : Option α := jsGetBuf c.buffer c.readPtr

/-- The iterator's loop: `len` reads starting at `ptr`, stepping
`ptr = (ptr + 1) % stride`. -/
def chubIterGo (c : Chub α) : Int → Nat → List (Option α)
  | _, 0 => []
  | ptr, n + 1 => jsGetBuf c.buffer ptr :: chubIterGo c ((ptr + 1).tmod c.stride) n

/-- `[Symbol.iterator]`: walks the occupied arc,
`ptr = ((readPtr + stride) - leftArm) % stride`,
`len = 1 + leftArm + rightArm` (no iterations when `len ≤ 0`). -/
def Chub.toList (c : Chub α) : List (Option α) :=
  chubIterGo c (((c.readPtr + c.stride) - c.leftArm).tmod c.stride)
    (1 + c.leftArm + c.rightArm).toNat

/-- State change of `advance()`: increment-and-wrap `readPtr`, increment
`leftArm` clamped at `armSize`, post-decrement `rightArm`.  Its return value
is `rightArm > 0` for the pre-decrement `rightArm`, checked at call sites. -/
def Chub.advanceStep (c : Chub α) : Chub α :=
  { c with
    readPtr := if c.readPtr + 1 ≥ (c.stride : Int) then 0 else c.readPtr + 1,
    leftArm := if c.leftArm + 1 > (c.armSize : Int) then (c.armSize : Int) else c.leftArm + 1,
    rightArm := c.rightArm - 1 }

/-- First half of `push(value)`: store at `writePtr`, increment-and-wrap
`writePtr`, increment `rightArm`. -/
def Chub.write (c : Chub α) (v : α) : Chub α :=
  { c with
    buffer := c.buffer.set c.writePtr (some v),
    writePtr := if c.writePtr + 1 ≥ c.stride then 0 else c.writePtr + 1,
    rightArm := c.rightArm + 1 }

/-- `push(value)`: write, then `if (++rightArm > armSize) this.advance()`
(the over-push eviction; `advance`'s return value is discarded). -/
def Chub.push (c : Chub α) (v : α) : Chub α :=
  let c2 := c.write v
  if c2.rightArm > (c2.armSize : Int) then c2.advanceStep else c2

/-- Feed a whole list into the buffer, left to right. -/
def chubPushAll (c : Chub α) (xs : List α) : Chub α :=
  xs.foldl Chub.push c

/-! ## FatMapSource (src/src/from.ts lines 518-543,
src/unnamed/part_000 lines 576-621)

```
*[Symbol.iterator]()
{
    const chub = new ChubSource(this.windowSize)
    let lag = this.windowSize + 1;
    for (const value of this.source) {
        chub.push(value);
        if (--lag <= 0)
            yield this.selector(chub);
    }
    while (chub.advance())
        yield this.selector(chub);
}
```
The selector receives the buffer itself (a `Chub` window view); we keep it
abstract as `sel : Chub α → R`.  The drain loop terminates because `advance`
decrements `rightArm` by exactly 1 and returns false once it was `≤ 0`; the
fuel `rightArm.toNat + 1` therefore never runs out. -/

/-- The `for`-`of` push loop of `FatMapSource`'s iterator: returns the yielded
values and the final buffer state. -/
def fatMapPush {R : Type v} (sel : Chub α → R) :
    Chub α → Int → List α → List R × Chub α
  | c, _, [] => ([], c)
  | c, lag, x :: xs =>
      let c2 := c.push x
      let r := fatMapPush sel c2 (lag - 1) xs
      (if lag - 1 ≤ 0 then sel c2 :: r.1 else r.1, r.2)

/-- The trailing `while (chub.advance()) yield selector(chub)` drain loop. -/
def fatMapDrain {R : Type v} (sel : Chub α → R) : Nat → Chub α → List R
  | 0, _ => []
  | fuel + 1, c =>
      if 0 < c.rightArm then sel c.advanceStep :: fatMapDrain sel fuel c.advanceStep
      else []

/-- Pull iteration of `FatMapSource`: `lag` starts at `windowSize + 1` and the
push loop is followed by the drain loop. -/
def fatMapPull {R : Type v} (sel : Chub α → R) (W : Nat) (xs : List α) : List R :=
  let r := fatMapPush sel (initChub W) ((W : Int) + 1) xs
  r.1 ++ fatMapDrain sel (r.2.rightArm.toNat + 1) r.2

/-- `chubAfter W xs d`: the buffer state the windowed transform reaches after
pushing all of `xs` and then advancing `d` more times (the drain loop).
States reached mid-stream are the instances with `xs` a prefix and `d = 0`. -/
def chubAfter (W : Nat) (xs : List α) (d : Nat) : Chub α :=
  Chub.advanceStep^[d] (chubPushAll (initChub W) xs)

/-! ### The reachable-state invariant

After `n` pushes and a total of `A` advances (implicit ones triggered by
over-pushes plus explicit drain advances), the buffer state is characterized
completely: the write cursor is at `n % stride`, the read cursor (once primed,
`A ≥ 1`) is at `(A-1) % stride` — the slot of input element `A-1`, the window
center — the left arm is `min (A-1) W`, the right arm is `n - A`, and the
slots of the last `min n stride` inputs hold exactly those inputs.  Pushing
element `n` makes the state for `n+1` pushes and `max (n-W, 0)` advances
(the over-push advance firing exactly when `n ≥ W`), and each drain advance
increments `A`. -/

def ChubInv (W : Nat) (xs : List α) (A : Nat) (c : Chub α) : Prop :=
  c.armSize = W ∧
  c.stride = 2 * W + 1 ∧
  c.buffer.length = 2 * W + 1 ∧
  c.writePtr = xs.length % (2 * W + 1) ∧
  c.rightArm = (xs.length : Int) - (A : Int) ∧
  (if A = 0 then c.readPtr = -1 ∧ c.leftArm = -1
   else c.readPtr = (((A - 1) % (2 * W + 1) : Nat) : Int) ∧
     c.leftArm = ((min (A - 1) W : Nat) : Int)) ∧
  ∀ i : Nat, i < xs.length → xs.length ≤ i + (2 * W + 1) →
    c.buffer.getD (i % (2 * W + 1)) none = xs[i]?

/-! ### Arithmetic helpers for the circular buffer -/

/-- `Int.tmod` on `Nat` casts is `Nat.mod` (definitionally). -/
theorem tmod_natCast (m n : Nat) : Int.tmod (m : Int) (n : Int) = ((m % n : Nat) : Int) :=
  rfl

theorem mod_succ_mod (k s : Nat) : (k % s + 1) % s = (k + 1) % s :=
  (Nat.mod_modEq k s).add_right 1

/-- The increment-and-wrap cursor step computes `(k + 1) % s`. -/
theorem mod_wrap_succ (k s : Nat) (hs : 0 < s) :
    (if s ≤ k % s + 1 then 0 else k % s + 1) = (k + 1) % s := by
  have h1 : k % s < s := Nat.mod_lt _ hs
  have key : (k + 1) % s = (k % s + 1) % s := (mod_succ_mod k s).symm
  by_cases h : s ≤ k % s + 1
  · have h2 : k % s + 1 = s := by omega
    rw [if_pos h, key, h2, Nat.mod_self]
  · rw [if_neg h, key, Nat.mod_eq_of_lt (show k % s + 1 < s by omega)]

/-- Two indices less than a stride apart occupy distinct buffer slots. -/
theorem mod_ne_of_between (i n s : Nat) (h1 : i < n) (h2 : n < i + s) :
    i % s ≠ n % s := by
  intro he
  have hdvd : s ∣ n - i := (Nat.modEq_iff_dvd' (le_of_lt h1)).mp he
  have hpos : 0 < n - i := by omega
  have := Nat.le_of_dvd hpos hdvd
  omega

theorem jsGetBuf_natCast (l : List (Option α)) (m : Nat) :
    jsGetBuf l (m : Int) = l.getD m none := by
  simp [jsGetBuf]

theorem chubInv_init (W : Nat) : ChubInv W ([] : List α) 0 (initChub W) := by
  refine ⟨rfl, rfl, by simp [initChub], by simp [initChub], by simp [initChub], ?_, ?_⟩
  · simp [initChub]
  · intro i h
    simp at h

theorem chubInv_advance {W : Nat} {xs : List α} {A : Nat} {c : Chub α}
    (h : ChubInv W xs A c) : ChubInv W xs (A + 1) c.advanceStep := by
  obtain ⟨hA, hS, hBL, hW, hR, hRL, hBuf⟩ := h
  have hs : 0 < 2 * W + 1 := by omega
  refine ⟨by simp [Chub.advanceStep, hA], by simp [Chub.advanceStep, hS],
    by simp [Chub.advanceStep, hBL], by simp [Chub.advanceStep, hW],
    by rw [show (Chub.advanceStep c).rightArm = c.rightArm - 1 from rfl, hR]
       push_cast
       ring, ?_, ?_⟩
  · rw [if_neg (by omega : ¬ A + 1 = 0)]
    simp only [Nat.add_sub_cancel]
    by_cases hA0 : A = 0
    · subst hA0
      have h' : c.readPtr = -1 ∧ c.leftArm = -1 := by simpa using hRL
      constructor
      · have hcond : ¬ c.readPtr + 1 ≥ ((c.stride : Nat) : Int) := by
          rw [h'.1, hS]
          omega
        simp only [Chub.advanceStep, if_neg hcond]
        rw [h'.1]
        simp
      · have hcond : ¬ c.leftArm + 1 > ((c.armSize : Nat) : Int) := by
          rw [h'.2, hA]
          omega
        simp only [Chub.advanceStep, if_neg hcond]
        rw [h'.2]
        have : min 0 W = 0 := Nat.zero_min W
        rw [this]
        omega
    · rw [if_neg hA0] at hRL
      obtain ⟨hrp, hla⟩ := hRL
      constructor
      · by_cases hcond : (2 * W + 1 : Nat) ≤ (A - 1) % (2 * W + 1) + 1
        · have hcond2 : c.readPtr + 1 ≥ ((c.stride : Nat) : Int) := by
            rw [hrp, hS]
            exact_mod_cast hcond
          simp only [Chub.advanceStep, if_pos hcond2]
          have hkey := mod_wrap_succ (A - 1) (2 * W + 1) hs
          rw [if_pos hcond] at hkey
          have hA1 : A - 1 + 1 = A := by omega
          rw [hA1] at hkey
          rw [← hkey]
          norm_num
        · have hcond2 : ¬ c.readPtr + 1 ≥ ((c.stride : Nat) : Int) := by
            rw [hrp, hS]
            intro hx
            exact hcond (by exact_mod_cast hx)
          simp only [Chub.advanceStep, if_neg hcond2]
          have hkey := mod_wrap_succ (A - 1) (2 * W + 1) hs
          rw [if_neg hcond] at hkey
          have hA1 : A - 1 + 1 = A := by omega
          rw [hA1] at hkey
          rw [hrp, ← hkey]
          push_cast
          ring
      · by_cases hcond : W ≤ A - 1
        · have hm1 : min (A - 1) W = W := by omega
          have hm2 : min A W = W := by omega
          have hcond2 : c.leftArm + 1 > ((c.armSize : Nat) : Int) := by
            rw [hla, hA, hm1]
            omega
          simp only [Chub.advanceStep, if_pos hcond2]
          rw [hA, hm2]
        · have hm1 : min (A - 1) W = A - 1 := by omega
          have hm2 : min A W = A := by omega
          have hcond2 : ¬ c.leftArm + 1 > ((c.armSize : Nat) : Int) := by
            rw [hla, hA, hm1]
            omega
          simp only [Chub.advanceStep, if_neg hcond2]
          rw [hla, hm1, hm2]
          omega
  · intro i h1 h2
    simpa [Chub.advanceStep] using hBuf i h1 h2

theorem chubInv_write {W : Nat} {ys : List α} {A : Nat} {c : Chub α} (v : α)
    (h : ChubInv W ys A c) : ChubInv W (ys ++ [v]) A (c.write v) := by
  obtain ⟨hA, hS, hBL, hW, hR, hRL, hBuf⟩ := h
  have hs : 0 < 2 * W + 1 := by omega
  refine ⟨by simp [Chub.write, hA], by simp [Chub.write, hS],
    by simp [Chub.write, hBL], ?_, ?_, ?_, ?_⟩
  · show (if c.writePtr + 1 ≥ c.stride then 0 else c.writePtr + 1) = _
    rw [hW, hS, List.length_append, List.length_singleton]
    exact mod_wrap_succ ys.length (2 * W + 1) hs
  · show c.rightArm + 1 = _
    rw [hR, List.length_append, List.length_singleton]
    push_cast
    ring
  · show (if A = 0 then c.readPtr = -1 ∧ c.leftArm = -1 else _)
    exact hRL
  · intro i h1 h2
    rw [List.length_append, List.length_singleton] at h1 h2
    show (c.buffer.set c.writePtr (some v)).getD (i % (2 * W + 1)) none = _
    rw [hW, List.getD_eq_getElem?_getD, List.getElem?_set]
    by_cases hi : i = ys.length
    · subst hi
      rw [if_pos rfl, if_pos (by rw [hBL]; exact Nat.mod_lt _ hs)]
      rw [List.getElem?_concat_length]
      rfl
    · have hne : ys.length % (2 * W + 1) ≠ i % (2 * W + 1) := by
        have hlt : i < ys.length := by omega
        exact fun he => mod_ne_of_between i ys.length (2 * W + 1) hlt (by omega) he.symm
      rw [if_neg hne, ← List.getD_eq_getElem?_getD]
      have := hBuf i (by omega) (by omega)
      rw [this, List.getElem?_append]
      rw [if_pos (by omega)]

theorem chubInv_push {W : Nat} {ys : List α} {c : Chub α} (v : α)
    (h : ChubInv W ys (ys.length - W) c) :
    ChubInv W (ys ++ [v]) ((ys.length + 1) - W) (c.push v) := by
  have hw := chubInv_write v h
  have hA : (c.write v).armSize = W := hw.1
  have hR : (c.write v).rightArm = ((ys.length + 1 : Nat) : Int) - ((ys.length - W : Nat) : Int) := by
    have := hw.2.2.2.2.1
    rwa [List.length_append, List.length_singleton] at this
  show ChubInv W (ys ++ [v])
    ((ys.length + 1) - W)
    (if (c.write v).rightArm > (((c.write v).armSize : Nat) : Int) then
      (c.write v).advanceStep else c.write v)
  by_cases hcase : W ≤ ys.length
  · rw [if_pos (by rw [hR, hA]; push_cast; omega)]
    have := chubInv_advance hw
    have heq : ys.length - W + 1 = ys.length + 1 - W := by omega
    rwa [heq] at this
  · rw [if_neg (by rw [hR, hA]; push_cast; omega)]
    have heq : ys.length - W = ys.length + 1 - W := by omega
    rwa [heq] at hw

theorem chubInv_pushAll (W : Nat) (xs : List α) :
    ChubInv W xs (xs.length - W) (chubPushAll (initChub W) xs) := by
  induction xs using List.reverseRecOn with
  | nil => simpa [chubPushAll] using chubInv_init W
  | append_singleton ys v ih =>
      have hfold : chubPushAll (initChub W) (ys ++ [v]) =
          (chubPushAll (initChub W) ys).push v := by
        simp [chubPushAll]
      rw [hfold, List.length_append, List.length_singleton]
      exact chubInv_push v ih

theorem chubInv_chubAfter (W : Nat) (xs : List α) (d : Nat) :
    ChubInv W xs (xs.length - W + d) (chubAfter W xs d) := by
  induction d with
  | zero => simpa [chubAfter] using chubInv_pushAll W xs
  | succ d ih =>
      have : chubAfter W xs (d + 1) = (chubAfter W xs d).advanceStep := by
        simp [chubAfter, Function.iterate_succ_apply']
      rw [this]
      exact chubInv_advance ih

/-- In a primed reachable state the centered current value is input element
`A - 1`. -/
theorem chubInv_value {W A : Nat} {xs : List α} {c : Chub α}
    (h : ChubInv W xs A c) (h1 : 1 ≤ A) (h2 : A ≤ xs.length)
    (h3 : xs.length ≤ A + W) : c.value = xs[A - 1]? := by
  obtain ⟨hA, hS, hBL, hW, hR, hRL, hBuf⟩ := h
  rw [if_neg (by omega : ¬ A = 0)] at hRL
  obtain ⟨hrp, hla⟩ := hRL
  rw [Chub.value, hrp, jsGetBuf_natCast]
  exact hBuf (A - 1) (by omega) (by omega)

theorem chubIterGo_slice (xs : List α) (c : Chub α) :
    ∀ (m k : Nat),
      (∀ t, t < m → c.buffer.getD ((k + t) % c.stride) none = xs[k + t]?) →
      k + m ≤ xs.length →
      chubIterGo c ((k % c.stride : Nat) : Int) m = ((xs.drop k).take m).map some := by
  intro m
  induction m with
  | zero =>
      intro k _ _
      simp [chubIterGo]
  | succ m ih =>
      intro k hbuf hlen
      have hk : k < xs.length := by omega
      have hhead : jsGetBuf c.buffer ((k % c.stride : Nat) : Int) = some (xs.get ⟨k, hk⟩) := by
        rw [jsGetBuf_natCast]
        have h0 := hbuf 0 (by omega)
        rw [Nat.add_zero] at h0
        rw [h0, List.getElem?_eq_getElem hk]
        rfl
      have hstep : (((k % c.stride : Nat) : Int) + 1).tmod (c.stride : Int)
          = (((k + 1) % c.stride : Nat) : Int) := by
        have hc : ((k % c.stride : Nat) : Int) + 1 = ((k % c.stride + 1 : Nat) : Int) := by
          push_cast
          ring
        rw [hc, tmod_natCast, mod_succ_mod]
      rw [chubIterGo, hstep, hhead]
      rw [List.drop_eq_getElem_cons hk, List.take_succ_cons, List.map_cons]
      congr 1
      have hbuf2 : ∀ t, t < m → c.buffer.getD ((k + 1 + t) % c.stride) none = xs[k + 1 + t]? := by
        intro t ht
        have := hbuf (t + 1) (by omega)
        rwa [show k + (t + 1) = k + 1 + t by omega] at this
      exact ih (k + 1) hbuf2 (by omega)

/-- In a primed reachable state with a non-negative right arm, iterating the
buffer walks exactly the contiguous input slice
`xs[A-1-leftArm .. A-1+rightArm]` — the occupied circular arc centered at the
read cursor. -/
theorem chubInv_toList {W A : Nat} {xs : List α} {c : Chub α}
    (h : ChubInv W xs A c) (h1 : 1 ≤ A) (h2 : A ≤ xs.length)
    (h3 : xs.length ≤ A + W) :
    c.toList = (xs.drop (A - 1 - min (A - 1) W)).map some := by
  obtain ⟨hA, hS, hBL, hW, hR, hRL, hBuf⟩ := h
  rw [if_neg (by omega : ¬ A = 0)] at hRL
  obtain ⟨hrp, hla⟩ := hRL
  have hs : 0 < (2 * W + 1) := by omega
  have hLle : min (A - 1) W ≤ A - 1 := Nat.min_le_left _ _
  have hLW : min (A - 1) W ≤ W := Nat.min_le_right _ _
  have hlen : (1 + c.leftArm + c.rightArm).toNat
      = 1 + min (A - 1) W + (xs.length - A) := by
    rw [hla, hR]
    omega
  have hstart : ((c.readPtr + (c.stride : Int)) - c.leftArm).tmod (c.stride : Int)
      = (((A - 1 - min (A - 1) W) % (2 * W + 1) : Nat) : Int) := by
    rw [hrp, hla, hS]
    have hcast : (((((A - 1) % (2 * W + 1) : Nat) : Int)) + ((2 * W + 1 : Nat) : Int))
        - ((min (A - 1) W : Nat) : Int)
        = (((A - 1) % (2 * W + 1) + (2 * W + 1) - min (A - 1) W : Nat) : Int) := by
      have hle : min (A - 1) W ≤ (A - 1) % (2 * W + 1) + (2 * W + 1) := by omega
      omega
    rw [hcast, tmod_natCast]
    congr 1
    have e1 : (A - 1) % (2 * W + 1) + (2 * W + 1) - min (A - 1) W + min (A - 1) W
        = (A - 1) % (2 * W + 1) + (2 * W + 1) := by omega
    have e2 : A - 1 - min (A - 1) W + min (A - 1) W = A - 1 := by omega
    have hmodeq : ((A - 1) % (2 * W + 1) + (2 * W + 1) - min (A - 1) W)
        ≡ (A - 1 - min (A - 1) W) [MOD 2 * W + 1] := by
      have step1 : (A - 1) % (2 * W + 1) + (2 * W + 1) ≡ (A - 1) + (2 * W + 1)
          [MOD 2 * W + 1] := (Nat.mod_modEq (A - 1) (2 * W + 1)).add_right _
      have step2 : (A - 1) + (2 * W + 1) ≡ A - 1 [MOD 2 * W + 1] :=
        Nat.add_mod_right (A - 1) (2 * W + 1)
      have chain : (A - 1) % (2 * W + 1) + (2 * W + 1) - min (A - 1) W + min (A - 1) W
          ≡ (A - 1 - min (A - 1) W) + min (A - 1) W [MOD 2 * W + 1] := by
        rw [e1, e2]
        exact step1.trans step2
      exact Nat.ModEq.add_right_cancel' _ chain
    exact hmodeq
  rw [Chub.toList, hstart, hlen]
  have hbuf2 : ∀ t, t < 1 + min (A - 1) W + (xs.length - A) →
      c.buffer.getD ((A - 1 - min (A - 1) W + t) % c.stride) none
        = xs[A - 1 - min (A - 1) W + t]? := by
    intro t ht
    rw [hS]
    exact hBuf _ (by omega) (by omega)
  have hslice := chubIterGo_slice xs c
    (1 + min (A - 1) W + (xs.length - A)) (A - 1 - min (A - 1) W) hbuf2 (by omega)
  rw [hS] at hslice
  rw [hslice]
  congr 1
  refine List.take_of_length_le ?_
  rw [List.length_drop]
  omega

/-! ### The push loop of FatMapSource -/

/-- While `lag` stays positive (strictly more than the number of remaining
pushes), the push loop yields nothing: it only feeds the buffer. -/
theorem fatMapPush_of_lt {R : Type v} (sel : Chub α → R) :
    ∀ (ys : List α) (c : Chub α) (lag : Int), (ys.length : Int) < lag →
      fatMapPush sel c lag ys = ([], chubPushAll c ys) := by
  intro ys
  induction ys with
  | nil => intro c lag _; rfl
  | cons x ys ih =>
      intro c lag h
      rw [List.length_cons] at h
      push_cast at h
      have hlen : (ys.length : Int) < lag - 1 := by omega
      have hpos : ¬ (lag - 1 ≤ 0) := by
        have : (0 : Int) ≤ (ys.length : Int) := Int.natCast_nonneg _
        omega
      simp only [fatMapPush, ih (c.push x) (lag - 1) hlen, if_neg hpos]
      simp [chubPushAll]

/-- When `lag` equals the number of remaining pushes (and is positive), the
push loop yields exactly one value: the selector applied to the final state. -/
theorem fatMapPush_exact {R : Type v} (sel : Chub α → R) :
    ∀ (ys : List α) (c : Chub α) (lag : Int),
      (ys.length : Int) = lag → 0 < lag →
      fatMapPush sel c lag ys = ([sel (chubPushAll c ys)], chubPushAll c ys) := by
  intro ys
  induction ys with
  | nil =>
      intro c lag h hpos
      exfalso
      simp at h
      omega
  | cons y ys ih =>
      intro c lag h hpos
      cases ys with
      | nil =>
          have h1 : lag = 1 := by simp at h; omega
          subst h1
          simp [fatMapPush, chubPushAll]
      | cons z zs =>
          rw [List.length_cons] at h
          push_cast at h
          have hlen1 : (1 : Int) ≤ ((z :: zs).length : Int) := by
            rw [List.length_cons]
            push_cast
            omega
          have hgt : ¬ (lag - 1 ≤ 0) := by omega
          show (if lag - 1 ≤ 0 then
                  sel (c.push y) :: (fatMapPush sel (c.push y) (lag - 1) (z :: zs)).1
                else (fatMapPush sel (c.push y) (lag - 1) (z :: zs)).1,
                (fatMapPush sel (c.push y) (lag - 1) (z :: zs)).2)
              = ([sel (chubPushAll c (y :: z :: zs))], chubPushAll c (y :: z :: zs))
          rw [ih (c.push y) (lag - 1) (by omega) (by omega)]
          rw [if_neg hgt]
          simp [chubPushAll]

/-- The push loop over a concatenation yields the first part's values followed
by the second part's, the latter starting from the fed state and the
decremented lag. -/
theorem fatMapPush_append {R : Type v} (sel : Chub α → R) :
    ∀ (ys zs : List α) (c : Chub α) (lag : Int),
      (fatMapPush sel c lag (ys ++ zs)).1 =
        (fatMapPush sel c lag ys).1 ++
          (fatMapPush sel (chubPushAll c ys) (lag - (ys.length : Int)) zs).1 := by
  intro ys
  induction ys with
  | nil =>
      intro zs c lag
      simp [fatMapPush, chubPushAll]
  | cons y ys ih =>
      intro zs c lag
      simp only [List.cons_append, fatMapPush, List.append_eq]
      rw [ih zs (c.push y) (lag - 1)]
      have harith : lag - 1 - (ys.length : Int) = lag - (((y :: ys).length : Nat) : Int) := by
        rw [List.length_cons]
        push_cast
        ring
      rw [harith]
      have hpush : chubPushAll (c.push y) ys = chubPushAll c (y :: ys) := by
        simp [chubPushAll]
      rw [hpush]
      by_cases hc : lag - 1 ≤ 0 <;> simp [hc]

/-! ### OrderBy: comparator characterization and stable-sort refinement -/

section OrderByLemmas

variable {K : Type v} [LinearOrder K]

/-- The comparator accepts `(i, x)` before `(j, y)` (for `i < j`, i.e. `x`
originally earlier) exactly when `y` is not strictly below `x`. -/
theorem obLE_pair_iff (k1 : α → K) (d1 : Bool) (k2 : α → K) (d2 : Bool)
    (a b : Nat × α) (hab : a.1 < b.1) :
    obLE [(k1, d1), (k2, d2)] a b ↔ specLt k1 d1 k2 d2 b.2 a.2 = false := by
  obtain ⟨i, x⟩ := a
  obtain ⟨j, y⟩ := b
  simp only at hab
  simp only [obLE, specLt, ltKeyB, List.map_cons, List.map_nil, lexCompare]
  rcases lt_trichotomy (k1 x) (k1 y) with h1 | h1 | h1
  · cases d1 <;> simp [h1, h1.not_lt, h1.ne, h1.ne']
  · rcases lt_trichotomy (k2 x) (k2 y) with h2 | h2 | h2
    · cases d2 <;> simp [h1, h2, h2.not_lt, lt_irrefl]
    · have htie : (i : Int) - (j : Int) ≤ 0 := by omega
      cases d2 <;> simp [h1, h2, lt_irrefl, htie]
    · cases d2 <;> simp [h1, h2, h2.not_lt, lt_irrefl]
  · cases d1 <;> simp [h1, h1.not_lt, h1.ne, h1.ne']

/-- Every record of `enumFrom n l` has index at least `n`. -/
theorem enumFrom_fst_le (l : List α) : ∀ (n : Nat), ∀ p ∈ List.enumFrom n l, n ≤ p.1 := by
  induction l with
  | nil => intro n p hp; simp [List.enumFrom] at hp
  | cons x l ih =>
      intro n p hp
      rcases List.mem_cons.mp hp with rfl | hp
      · exact le_refl n
      · exact le_trans (Nat.le_succ n) (ih (n + 1) p hp)

theorem orderedInsert_map_snd (k1 : α → K) (d1 : Bool) (k2 : α → K) (d2 : Bool)
    (i : Nat) (x : α) :
    ∀ l : List (Nat × α), (∀ p ∈ l, i < p.1) →
      (List.orderedInsert (obLE [(k1, d1), (k2, d2)]) (i, x) l).map Prod.snd =
        stableInsertBy (specLt k1 d1 k2 d2) x (l.map Prod.snd) := by
  intro l
  induction l with
  | nil => intro _; rfl
  | cons q l ih =>
      intro h
      have hq := obLE_pair_iff k1 d1 k2 d2 (i, x) q (h q (List.mem_cons_self _ _))
      by_cases hlt : specLt k1 d1 k2 d2 q.2 x = true
      · have : ¬ obLE [(k1, d1), (k2, d2)] (i, x) q := by
          rw [hq]
          simp [hlt]
        rw [List.orderedInsert, if_neg this]
        simp only [List.map_cons, stableInsertBy, if_pos hlt]
        rw [ih (fun p hp => h p (List.mem_cons_of_mem _ hp))]
      · have hfalse : specLt k1 d1 k2 d2 q.2 x = false := by
          simpa using hlt
        have : obLE [(k1, d1), (k2, d2)] (i, x) q := hq.mpr hfalse
        rw [List.orderedInsert, if_pos this]
        simp only [List.map_cons, stableInsertBy, hfalse]
        simp

theorem insertionSort_enumFrom_snd (k1 : α → K) (d1 : Bool) (k2 : α → K) (d2 : Bool)
    (xs : List α) : ∀ i : Nat,
      (List.insertionSort (obLE [(k1, d1), (k2, d2)]) (List.enumFrom i xs)).map Prod.snd =
        stableSortBy (specLt k1 d1 k2 d2) xs := by
  induction xs with
  | nil => intro i; rfl
  | cons x xs ih =>
      intro i
      have hmem : ∀ p ∈ List.insertionSort (obLE [(k1, d1), (k2, d2)])
          (List.enumFrom (i + 1) xs), i < p.1 := by
        intro p hp
        have : p ∈ List.enumFrom (i + 1) xs :=
          (List.perm_insertionSort _ _).subset hp
        exact lt_of_lt_of_le (Nat.lt_succ_self i) (enumFrom_fst_le xs (i + 1) p this)
      show (List.orderedInsert _ (i, x) _).map Prod.snd = _
      rw [orderedInsert_map_snd k1 d1 k2 d2 i x _ hmem, ih (i + 1)]
      rfl

/-- **C3.** `orderBy(k1, d1).thenBy(k2, d2)` is exactly the stable sort by the
lexicographic key tuple `(k1, k2)` (each key compared with the default `<`
ordering, a descending direction inverting only that key's comparison, and
elements whose keys are all equal retaining their original input order); in
particular the spec's example `[{a:1,b:2},{a:1,b:1},{a:2,b:0}]` sorted by `a`
ascending then `b` descending is unchanged. -/
theorem orderBy_thenBy_spec {α2 : Type u} {K2 : Type v} [LinearOrder K2] :
    (∀ (k1 : α2 → K2) (d1 : Bool) (k2 : α2 → K2) (d2 : Bool) (xs : List α2),
        orderByThenBy k1 d1 k2 d2 xs = stableSortBy (specLt k1 d1 k2 d2) xs) ∧
      orderByThenBy (Prod.fst : Int × Int → Int) false Prod.snd true
          [(1, 2), (1, 1), (2, 0)] = [(1, 2), (1, 1), (2, 0)] := by
  constructor
  · intro k1 d1 k2 d2 xs
    unfold orderByThenBy orderByEval
    rw [show xs.enum = List.enumFrom 0 xs from rfl]
    exact insertionSort_enumFrom_snd k1 d1 k2 d2 xs 0
  · decide

end OrderByLemmas

/-! ### Supporting lemmas -/

theorem skipPull_of_nonpos (count : Int) (xs : List α) (h : count ≤ 0) :
    skipPull count xs = xs := by
  induction xs generalizing count with
  | nil => rfl
  | cons x xs ih =>
      simp only [skipPull, if_pos h]
      exact congrArg (x :: ·) (ih _ (by omega))

theorem skipWhilePullGo_true (p : α → Bool) (xs : List α) :
    skipWhilePullGo p true xs = xs := by
  induction xs with
  | nil => rfl
  | cons x xs ih => simp [skipWhilePullGo, ih]

theorem singleGo_one (p : α → Bool) (lastResult : Option α) (xs : List α) :
    (xs.filter p = [] → singleGo p 1 lastResult xs = .ok lastResult) ∧
      (xs.filter p ≠ [] →
        singleGo p 1 lastResult xs = .error "Query would return more than one result") := by
  induction xs generalizing lastResult with
  | nil => exact ⟨fun _ => rfl, fun h => absurd rfl h⟩
  | cons x xs ih =>
      by_cases hp : p x
      · refine ⟨?_, ?_⟩
        · intro h
          rw [List.filter_cons, if_pos hp] at h
          exact absurd h (by simp)
        · intro _
          simp [singleGo, hp]
      · have hf : (x :: xs).filter p = xs.filter p := by
          rw [List.filter_cons, if_neg (by simpa using hp)]
        refine ⟨?_, ?_⟩
        · intro h
          rw [hf] at h
          simpa [singleGo, hp] using (ih lastResult).1 h
        · intro h
          rw [hf] at h
          simpa [singleGo, hp] using (ih lastResult).2 h

/-! ### Claim theorems -/

/-- **C10.** For every count `≤ 0`, `take(count)` yields the empty sequence and
`skip(count)` yields the entire input unchanged.  (Neither throws: both
embeddings are total functions, as are the generators they model.) -/
theorem take_skip_nonpos (count : Int) (xs : List α) (h : count ≤ 0) :
    takePull count xs = [] ∧ skipPull count xs = xs := by
  refine ⟨?_, skipPull_of_nonpos count xs h⟩
  cases xs with
  | nil => rfl
  | cons x xs => simp [takePull, h]

/-- Witness for `take_skip_nonpos` at `count = -2`, `xs = [5, 6]`. -/
theorem take_skip_nonpos_witness :
    takePull (-2) ([5, 6] : List Int) = [] ∧ skipPull (-2) ([5, 6] : List Int) = [5, 6] :=
  take_skip_nonpos (-2) ([5, 6] : List Int) (by decide)

/-- **C4, counterexample.** `take(3)` over the 10-element source `0,…,9`
produces the first three elements but advances the upstream iterator **4**
times, not 3: the `for`-`of` loop pulls a fourth element before the
`takesLeft-- <= 0` check breaks out. -/
theorem take3_advances_four_not_three :
    takeTrace 3 (List.range 10) = ([0, 1, 2], 4) ∧ (4 : Nat) ≠ 3 := by
  constructor
  · rfl
  · decide

/-- **C4, amended.** `take(3).toArray()` on a pull-based source longer than 3
elements produces exactly the first 3 elements while advancing the upstream
iterator exactly 4 times (one advance per yielded element plus one surplus
advance whose value is discarded when the stage stops). -/
theorem take3_consumes_four (xs : List α) (h : 3 < xs.length) :
    takeTrace 3 xs = (xs.take 3, 4) := by
  match xs, h with
  | x0 :: x1 :: x2 :: x3 :: rest, _ =>
      simp [takeTrace, List.take]

/-- Witness for `take3_consumes_four` on `[0,…,9]`. -/
theorem take3_consumes_four_witness :
    3 < (List.range 10).length ∧ takeTrace 3 (List.range 10) = ((List.range 10).take 3, 4) :=
  ⟨by decide, take3_consumes_four (List.range 10) (by decide)⟩

/-- **C1.** The push (`forEach`) and pull (`[Symbol.iterator]`) paths of
`SkipWhileSource` diverge: with the constantly-true predicate over `[1, 2, 3]`
the pull path yields all three elements, while the push path calls the
(always-continuing) iteratee zero times — its callback tests the *negated*
predicate and returns `false` (aborting the upstream) while still skipping.
This theorem evaluates both paths at that failing input. -/
theorem skipWhile_push_pull_diverge :
    skipWhilePull (fun _ => true) ([1, 2, 3] : List Int) = [1, 2, 3] ∧
      skipWhileForEach (fun _ => true) (fun _ => true) ([1, 2, 3] : List Int) = ([], false) := by
  constructor <;> rfl

/-- **C8.** `Query.single(predicate)` throws whenever more than one element
matches, and returns the unique matching element when exactly one does. -/
theorem single_spec (p : α → Bool) (xs : List α) :
    (2 ≤ (xs.filter p).length →
        single p xs = .error "Query would return more than one result") ∧
      (∀ x : α, xs.filter p = [x] → single p xs = .ok (some x)) := by
  have main : ∀ ys : List α,
      (2 ≤ (ys.filter p).length →
          singleGo p 0 none ys = .error "Query would return more than one result") ∧
        (∀ x : α, ys.filter p = [x] → singleGo p 0 none ys = .ok (some x)) := by
    intro ys
    induction ys with
    | nil => exact ⟨by intro h; simp at h, by intro x h; simp at h⟩
    | cons y ys ih =>
        by_cases hp : p y
        · refine ⟨?_, ?_⟩
          · intro h
            have hne : ys.filter p ≠ [] := by
              intro hnil
              rw [List.filter_cons, if_pos hp, hnil] at h
              simp at h
            have := (singleGo_one p (some y) ys).2 hne
            simpa [singleGo, hp] using this
          · intro x h
            rw [List.filter_cons, if_pos hp] at h
            obtain ⟨rfl, hnil⟩ : y = x ∧ ys.filter p = [] :=
              ⟨(List.cons_eq_cons.mp h).1, (List.cons_eq_cons.mp h).2⟩
            have := (singleGo_one p (some y) ys).1 hnil
            simpa [singleGo, hp] using this
        · have hf : (y :: ys).filter p = ys.filter p := by
            rw [List.filter_cons, if_neg (by simpa using hp)]
          refine ⟨?_, ?_⟩
          · intro h
            rw [hf] at h
            simpa [singleGo, hp] using (ih.1 h)
          · intro x h
            rw [hf] at h
            simpa [singleGo, hp] using (ih.2 x h)
  exact main xs

/-- **C2.** The windowed transform with half-window `W = 1` over `[1,2,3,4]`
yields exactly 4 windows; their centered current values are `1, 2, 3, 4` and
the iterated window contents are `[1,2]`, `[1,2,3]`, `[2,3,4]`, `[3,4]`
(the selector here records `(chub.value, [...chub])`). -/
theorem fatMap_window1_example :
    fatMapPull (fun c => (c.value, c.toList)) 1 ([1, 2, 3, 4] : List Int) =
      [(some 1, [some 1, some 2]), (some 2, [some 1, some 2, some 3]),
        (some 3, [some 2, some 3, some 4]), (some 4, [some 3, some 4])] := by
  decide

/-- **C5.** Evaluation at the failing inputs: `skipLast(0)` over `[1, 2, 3]`
yields three values (`undefined`, `undefined`, `2`), not the empty result the
claim demands, and `skipLast(-1)` throws a `RangeError` from
`new Array(-1)`.  (`takeLast` does satisfy the claim: its explicit
`count > 0 ? ... : []` guard yields `[]` for non-positive counts.) -/
theorem skipLast_nonpos_bug :
    skipLastRun 0 ([1, 2, 3] : List Int) = .ok [none, none, some 2] ∧
      skipLastRun (-1) ([1] : List Int) = .error "RangeError: Invalid array length" ∧
      takeLastRun 0 ([1, 2, 3] : List Int) = [] ∧
      takeLastRun (-1) ([1] : List Int) = [] ∧
      (Except.ok [none, none, some 2] : Except String (List (Option Int))) ≠ .ok [] := by
  refine ⟨rfl, rfl, by decide, by decide, ?_⟩
  simp

/-- Witness for `single_spec`: exactly one even element of `[1, 2, 3]` gives
that element; the two even elements of `[1, 2, 4]` give the error. -/
theorem single_spec_witness :
    single (fun n => n % 2 == 0) ([1, 2, 3] : List Int) = .ok (some 2) ∧
      single (fun n => n % 2 == 0) ([1, 2, 4] : List Int) =
        .error "Query would return more than one result" :=
  ⟨(single_spec (fun n => n % 2 == 0) ([1, 2, 3] : List Int)).2 2 (by decide),
    (single_spec (fun n => n % 2 == 0) ([1, 2, 4] : List Int)).1 (by decide)⟩

/-! ### countBy characterization -/

section CountByLemmas

variable {K : Type v} [DecidableEq K]

/-- Every value stored in an all-zero map is zero. -/
theorem mapGet_of_all_zero (m : List (K × Nat)) (hz : ∀ p ∈ m, p.2 = 0) (k : K) :
    mapGet m k = none ∨ mapGet m k = some 0 := by
  induction m with
  | nil => exact .inl rfl
  | cons q m ih =>
      obtain ⟨k', v⟩ := q
      have hv : v = 0 := hz (k', v) (by simp)
      by_cases hk : k = k'
      · right
        simp [mapGet, hk, hv]
      · simpa [mapGet, hk] using ih (fun p hp => hz p (by simp [hp]))

/-- Re-setting a present key of an all-zero map to zero is a no-op. -/
theorem mapSet_zero_of_mem (m : List (K × Nat)) (hz : ∀ p ∈ m, p.2 = 0) (k : K)
    (hk : k ∈ m.map Prod.fst) : mapSet m k 0 = m := by
  induction m with
  | nil => simp at hk
  | cons q m ih =>
      obtain ⟨k', v⟩ := q
      have hv : v = 0 := hz (k', v) (by simp)
      by_cases he : k = k'
      · simp [mapSet, he, hv]
      · have hk' : k ∈ m.map Prod.fst := by
          rcases (by simpa using hk : k = k' ∨ k ∈ m.map Prod.fst) with h | h
          · exact absurd h he
          · exact h
        simp [mapSet, he, ih (fun p hp => hz p (by simp [hp])) hk']

/-- Setting an absent key appends the new entry at the end (insertion order). -/
theorem mapSet_of_not_mem (m : List (K × Nat)) (k : K) (v : Nat)
    (hk : k ∉ m.map Prod.fst) : mapSet m k v = m ++ [(k, v)] := by
  induction m with
  | nil => rfl
  | cons q m ih =>
      obtain ⟨k', v'⟩ := q
      have he : ¬ k = k' := by
        intro h
        exact hk (by simp [h])
      simp [mapSet, he, ih (by intro h; exact hk (by simp [h]))]

theorem distinctKeys_congr (ks : List K) : ∀ s1 s2 : List K,
    (∀ k : K, k ∈ s1 ↔ k ∈ s2) → distinctKeys s1 ks = distinctKeys s2 ks := by
  induction ks with
  | nil => intro s1 s2 _; rfl
  | cons k ks ih =>
      intro s1 s2 h
      by_cases hk : k ∈ s1
      · simp [distinctKeys, hk, (h k).mp hk, ih s1 s2 h]
      · have hk2 : k ∉ s2 := fun hx => hk ((h k).mpr hx)
        have : ∀ j : K, j ∈ k :: s1 ↔ j ∈ k :: s2 := by
          intro j
          simp [h j]
        simp [distinctKeys, hk, hk2, ih (k :: s1) (k :: s2) this]

theorem mem_distinctKeys (ks : List K) : ∀ (seen : List K) (k : K),
    k ∈ distinctKeys seen ks ↔ k ∈ ks ∧ k ∉ seen := by
  induction ks with
  | nil => simp [distinctKeys]
  | cons k' ks ih =>
      intro seen k
      by_cases hs : k' ∈ seen
      · rw [distinctKeys, if_pos hs, ih]
        constructor
        · exact fun ⟨h1, h2⟩ => ⟨List.mem_cons_of_mem _ h1, h2⟩
        · rintro ⟨h1, h2⟩
          rcases List.mem_cons.mp h1 with rfl | h1
          · exact absurd hs h2
          · exact ⟨h1, h2⟩
      · rw [distinctKeys, if_neg hs]
        constructor
        · intro h
          rcases List.mem_cons.mp h with rfl | h1
          · exact ⟨List.mem_cons_self _ _, hs⟩
          · obtain ⟨hks, hni⟩ := (ih (k' :: seen) k).mp h1
            exact ⟨List.mem_cons_of_mem _ hks, fun hx => hni (List.mem_cons_of_mem _ hx)⟩
        · rintro ⟨h1, h2⟩
          rcases List.mem_cons.mp h1 with rfl | h1
          · exact List.mem_cons_self _ _
          · by_cases he : k = k'
            · exact he ▸ List.mem_cons_self _ _
            · refine List.mem_cons_of_mem _ ((ih (k' :: seen) k).mpr ⟨h1, ?_⟩)
              intro hx
              rcases List.mem_cons.mp hx with h | h
              · exact he h
              · exact h2 h

theorem countByGo_eq (sel : α → K) (xs : List α) : ∀ m : List (K × Nat),
    (∀ p ∈ m, p.2 = 0) →
    countByGo sel m xs =
      m ++ (distinctKeys (m.map Prod.fst) (xs.map sel)).map (fun k => (k, 0)) := by
  induction xs with
  | nil =>
      intro m _
      simp [countByGo, distinctKeys]
  | cons x xs ih =>
      intro m hz
      have hcount : (match mapGet m (sel x) with | none => 0 | some c => c) = 0 := by
        rcases mapGet_of_all_zero m hz (sel x) with h | h <;> simp [h]
      by_cases hk : sel x ∈ m.map Prod.fst
      · have hset : mapSet m (sel x) 0 = m := mapSet_zero_of_mem m hz (sel x) hk
        calc countByGo sel m (x :: xs)
            = countByGo sel (mapSet m (sel x) 0) xs := by
              simp only [countByGo, hcount]
          _ = countByGo sel m xs := by rw [hset]
          _ = m ++ (distinctKeys (m.map Prod.fst) ((x :: xs).map sel)).map
                (fun k => (k, 0)) := by
              rw [ih m hz]
              simp [distinctKeys, hk]
      · have hset : mapSet m (sel x) 0 = m ++ [(sel x, 0)] :=
          mapSet_of_not_mem m (sel x) 0 hk
        have hz2 : ∀ p ∈ m ++ [(sel x, 0)], p.2 = 0 := by
          intro p hp
          rcases List.mem_append.mp hp with h | h
          · exact hz p h
          · simp at h
            simp [h]
        calc countByGo sel m (x :: xs)
            = countByGo sel (m ++ [(sel x, 0)]) xs := by
              simp only [countByGo, hcount, hset]
          _ = (m ++ [(sel x, 0)]) ++
                (distinctKeys ((m ++ [(sel x, 0)]).map Prod.fst) (xs.map sel)).map
                  (fun k => (k, 0)) := ih (m ++ [(sel x, 0)]) hz2
          _ = m ++ (distinctKeys (m.map Prod.fst) ((x :: xs).map sel)).map
                (fun k => (k, 0)) := by
              have hcongr : distinctKeys (m.map Prod.fst ++ [sel x]) (xs.map sel)
                  = distinctKeys (sel x :: m.map Prod.fst) (xs.map sel) := by
                refine distinctKeys_congr (xs.map sel) _ _ ?_
                intro k
                simp [or_comm]
              simp [distinctKeys, hk, hcongr]

/-- **C9.** `countBy` returns a map whose key set is exactly the distinct keys
produced by the selector, and in which *every* key maps to `0`: the tally
written by `counts.set(key, count++)` is the pre-increment value, so it never
moves past zero. -/
theorem countBy_spec (sel : α → K) (xs : List α) :
    (∀ k : K, k ∈ (countBy sel xs).map Prod.fst ↔ k ∈ xs.map sel) ∧
      ∀ p ∈ countBy sel xs, p.2 = 0 := by
  have hchar := countByGo_eq sel xs [] (by simp)
  constructor
  · intro k
    unfold countBy
    rw [hchar]
    simp [mem_distinctKeys]
  · intro p hp
    unfold countBy at hp
    rw [hchar] at hp
    simp at hp
    obtain ⟨k, _, rfl⟩ := hp
    rfl

end CountByLemmas

/-- **C6, counterexample.** With `W = 1` over `[10, 20, 30, 40]` the first
yielded window is centered on the *first* input element (`10`), not on the
`(W+1)`-th (`20`) as the claim states.  (The first yield does happen at the
`(W+1)`-th push, but the implicit advance primes the read cursor at slot 0.) -/
theorem fatMap_first_center_concrete :
    (fatMapPull Chub.value 1 ([10, 20, 30, 40] : List Int)).head? = some (some 10) ∧
      (some (some (10 : Int)) : Option (Option Int)) ≠ some (some 20) := by
  exact ⟨by decide, by decide⟩

/-- **C6, amended.** For every half-window `W ≥ 0` and input with more than
`W` elements: the first `W` pushes fill the right side of the window
(`rightArm` reaches `W` while the read cursor is still unprimed at `-1`)
without yielding any output — the lag counter starts at `W + 1` and is
decremented once per push, production beginning only once it reaches `≤ 0` —
and the first yielded window is produced upon the `(W+1)`-th push and is
centered on the **first** input element. -/
theorem fatMap_priming (W : Nat) (xs : List α) (h : W < xs.length) :
    (fatMapPush Chub.value (initChub W) ((W : Int) + 1) (xs.take W)).1 = [] ∧
      (chubPushAll (initChub W) (xs.take W)).rightArm = (W : Int) ∧
      (chubPushAll (initChub W) (xs.take W)).readPtr = -1 ∧
      (fatMapPull Chub.value W xs).head? = some xs[0]? := by
  have htakeW : (xs.take W).length = W := by
    rw [List.length_take]
    omega
  refine ⟨?_, ?_, ?_, ?_⟩
  · rw [fatMapPush_of_lt Chub.value (xs.take W) (initChub W) ((W : Int) + 1)
      (by rw [htakeW]; omega)]
  · have hinv := chubInv_pushAll W (xs.take W)
    rw [htakeW, Nat.sub_self] at hinv
    rw [hinv.2.2.2.2.1, htakeW]
    simp
  · have hinv := chubInv_pushAll W (xs.take W)
    rw [htakeW, Nat.sub_self] at hinv
    have hRL := hinv.2.2.2.2.2.1
    rw [if_pos rfl] at hRL
    exact hRL.1
  · have htake1 : (xs.take (W + 1)).length = W + 1 := by
      rw [List.length_take]
      omega
    have hexact := fatMapPush_exact Chub.value (xs.take (W + 1)) (initChub W)
      ((W : Int) + 1) (by rw [htake1]; push_cast; ring) (by omega)
    have hinv := chubInv_pushAll W (xs.take (W + 1))
    rw [htake1, Nat.add_sub_cancel_left] at hinv
    have hval := chubInv_value hinv (le_refl 1) (by rw [htake1]; omega)
      (by rw [htake1]; omega)
    have hval0 : (chubPushAll (initChub W) (xs.take (W + 1))).value = xs[0]? := by
      rw [hval, List.getElem?_take]
      rw [if_pos (by omega)]
    simp only [fatMapPull]
    conv_lhs => rw [← List.take_append_drop (W + 1) xs]
    rw [fatMapPush_append, hexact]
    simp [List.head?_append, hval0]

/-- Extracting the named components of the occupied-arc characterization. -/
theorem chub_arc_fields (W : Nat) (xs : List α) (d : Nat)
    (hp : ¬ xs.length - W + d = 0) :
    (chubAfter W xs d).leftArm = ((min (xs.length - W + d - 1) W : Nat) : Int) ∧
      (chubAfter W xs d).rightArm =
        (xs.length : Int) - ((xs.length - W + d : Nat) : Int) := by
  have hinv := chubInv_chubAfter W xs d
  have hRL := hinv.2.2.2.2.2.1
  rw [if_neg hp] at hRL
  exact ⟨hRL.2, hinv.2.2.2.2.1⟩

/-- **C7.** Reachable-state invariant of the circular window buffer: after the
windowed transform performs any run of pushes (`xs`) followed by `d` drain
advances (with `d` small enough that the preceding `advance` returned true),
once primed the occupied slots form a contiguous circular arc — iterating the
buffer yields exactly the consecutive input slice of length
`1 + leftArm + rightArm` ending at the last pushed element and centered at
the read cursor, whose `value` is the center element; `leftArm` and
`rightArm` never exceed `W`; and a push finding `rightArm` already at `W`
performs the implicit advance (evicting the oldest element) as part of
accepting the new one. -/
theorem chub_arc_invariant (W : Nat) (xs : List α) (d : Nat)
    (hd : d ≤ min xs.length W) (hp : 1 ≤ xs.length - W + d) :
    (chubAfter W xs d).leftArm ≤ (W : Int) ∧
      (chubAfter W xs d).rightArm ≤ (W : Int) ∧
      (0 : Int) ≤ (chubAfter W xs d).rightArm ∧
      (chubAfter W xs d).toList =
        (xs.drop (xs.length - W + d - 1 - min (xs.length - W + d - 1) W)).map some ∧
      (chubAfter W xs d).toList.length =
        (1 + (chubAfter W xs d).leftArm + (chubAfter W xs d).rightArm).toNat ∧
      (chubAfter W xs d).value = xs[xs.length - W + d - 1]? ∧
      (∀ (c2 : Chub α) (v : α), c2.rightArm = ((c2.armSize : Nat) : Int) →
        c2.push v = (c2.write v).advanceStep) := by
  have hinv := chubInv_chubAfter W xs d
  have hfields := chub_arc_fields W xs d (by omega)
  have hA2 : xs.length - W + d ≤ xs.length := by omega
  have hA3 : xs.length ≤ (xs.length - W + d) + W := by omega
  have htl := chubInv_toList hinv hp hA2 hA3
  refine ⟨?_, ?_, ?_, htl, ?_, chubInv_value hinv hp hA2 hA3, ?_⟩
  · rw [hfields.1]
    exact_mod_cast Nat.min_le_right _ _
  · rw [hfields.2]
    omega
  · rw [hfields.2]
    omega
  · rw [htl, hfields.1, hfields.2]
    simp only [List.length_map, List.length_drop]
    omega
  · intro c2 v hrv
    have hwr : (c2.write v).rightArm = c2.rightArm + 1 := rfl
    have hwa : (c2.write v).armSize = c2.armSize := rfl
    show (if (c2.write v).rightArm > (((c2.write v).armSize : Nat) : Int) then
        (c2.write v).advanceStep else c2.write v) = (c2.write v).advanceStep
    rw [if_pos (by rw [hwr, hwa, hrv]; omega)]

/-- Witness for `chub_arc_invariant` at `W = 1`, `xs = [5, 6, 7]`, `d = 1`. -/
theorem chub_arc_invariant_witness :
    (chubAfter 1 ([5, 6, 7] : List Int) 1).value = ([5, 6, 7] : List Int)[2]? ∧
      (chubAfter 1 ([5, 6, 7] : List Int) 1).toList = [some 6, some 7] := by
  have h := chub_arc_invariant 1 ([5, 6, 7] : List Int) 1 (by decide) (by decide)
  refine ⟨h.2.2.2.2.2.1, ?_⟩
  rw [h.2.2.2.1]
  decide

/-- Witness for `fatMap_priming` at `W = 1`, `xs = [10, 20, 30, 40]`. -/
theorem fatMap_priming_witness :
    1 < ([10, 20, 30, 40] : List Int).length ∧
      (fatMapPull Chub.value 1 ([10, 20, 30, 40] : List Int)).head? =
        some ([10, 20, 30, 40] : List Int)[0]? :=
  ⟨by decide, (fatMap_priming 1 ([10, 20, 30, 40] : List Int) (by decide)).2.2.2⟩

/-- Witness for `countBy_spec` over `[2, 5, 7]` keyed by `n % 3`
(`countBy` evaluates to `[(2, 0), (1, 0)]`). -/
theorem countBy_spec_witness :
    (2 : Int) ∈ (countBy (fun n => n % 3) ([2, 5, 7] : List Int)).map Prod.fst ∧
      ((2 : Int), (0 : Nat)).2 = 0 :=
  ⟨((countBy_spec (fun n => n % 3) ([2, 5, 7] : List Int)).1 2).mpr (by decide),
    (countBy_spec (fun n => n % 3) ([2, 5, 7] : List Int)).2 (2, 0) (by decide)⟩

end FromJs
